import Mathlib

/-!
# Verification of `parser-utils` (normalization of file records)

A shallow embedding of `index.js` of the `parser-utils` repository
(latest variant: `utils.siftKeys`, `utils.mergeData`, `utils.flattenObject`,
`utils.extendFile`), together with proofs about the claims on its
specification.

JavaScript values are modelled by the inductive type `JVal`; objects are
association lists of own enumerable properties in insertion order.  The
lodash primitives used by the source (`_.merge`, `_.pick`, `_.difference`,
`_.keys`) are modelled on that representation with their documented
semantics: `merge` walks the source's keys in order, recursively merging
mapping values and overwriting with primitive values; `pick` walks the
requested key list; assignment to an existing key keeps its position,
assignment to a fresh key appends.

The module runs under `'use strict'`, so assigning a property onto a
primitive (the truthy non-string non-object `file` branch of `extendFile`)
raises a `TypeError`; this is modelled by the `error` result.  The
`defineGetter` call in `siftKeys` installs an enumerable, non-configurable
accessor `content` on `orig` whose getter returns the record's current
`content` and whose setter does nothing; the returned record is therefore
modelled as a `sifted` result whose observable reads/writes account for
that accessor.
-/

/-- A JavaScript value: `null`, booleans, numbers (integral), strings, or a
plain object given as its own enumerable properties in insertion order. -/
inductive JVal : Type where
  | null : JVal
  | bool : Bool → JVal
  | num : Int → JVal
  | str : String → JVal
  | obj : List (String × JVal) → JVal
deriving Repr

/-- A JavaScript plain object: own enumerable properties in insertion order. -/
abbrev JObj := List (String × JVal)

/-- Property read (`o[k]`); `none` models `undefined`/absence. -/
def oget : JObj → String → Option JVal
  | [], _ => none
  | (k, v) :: t, q => if k = q then some v else oget t q

/-- Property assignment (`o[k] = v`): an existing key keeps its position,
a fresh key is appended (JavaScript property-order semantics). -/
def oset : JObj → String → JVal → JObj
  | [], q, w => [(q, w)]
  | (k, v) :: t, q, w => if k = q then (q, w) :: t else (k, v) :: oset t q w

/-- `delete o[k]`. -/
def odel (o : JObj) (q : String) : JObj :=
  o.filter (fun p => p.1 ≠ q)

/-- `Object.keys(o)`. -/
def okeys (o : JObj) : List String :=
  o.map Prod.fst

/-- `_.pick(o, props)`: the requested keys, in request order, restricted to
those present on `o`. -/
def opick (o : JObj) : List String → JObj
  | [] => []
  | q :: t =>
    match oget o q with
    | some v => (q, v) :: opick o t
    | none => opick o t

mutual
/-- One slot of `_.merge`: a mapping source value merges recursively into a
mapping destination value; otherwise the source value wins. -/
def mergeVal : Option JVal → JVal → JVal
  | some (.obj dm), .obj sm => .obj (mergeO dm sm)
  | _, sv => sv
/-- `_.merge(dest, src)` for object `src`: walk the source's keys in order,
merging each slot into the destination. -/
def mergeO : JObj → JObj → JObj
  | d, [] => d
  | d, (k, sv) :: t => mergeO (oset d k (mergeVal (oget d k) sv)) t
end

/-- `_.merge(dest, s)` where `s` is an arbitrary value: non-object sources
are skipped. -/
def mergeTop (d : JObj) : JVal → JObj
  | .obj m => mergeO d m
  | _ => d

mutual
/-- Well-formedness of a value: every object in it has pairwise distinct
keys (true of every real JavaScript object). -/
def wfV : JVal → Bool
  | .obj m => wfO m
  | _ => true
/-- Well-formedness of an object: distinct keys, recursively. -/
def wfO : JObj → Bool
  | [] => true
  | (k, v) :: t => (oget t k).isNone && wfV v && wfO t
end

/-- View a value as an object (lodash collection primitives treat a
non-object argument as empty). -/
def asObj : JVal → JObj
  | .obj m => m
  | _ => []

/-- JavaScript truthiness of a read property (`none` models `undefined`). -/
def truthy : Option JVal → Bool
  | none => false
  | some .null => false
  | some (.bool b) => b
  | some (.num n) => n != 0
  | some (.str s) => s != ""
  | some (.obj _) => true

/-- Falsiness of the `file` argument itself (`!file` in the source). -/
def falsyArg (f : Option JVal) : Bool :=
  !truthy f

/-! ## Transcription of `index.js` (latest variant) -/

/-- `utils.file`: the shared default record. -/
def file : JObj :=
  [("path", .str ""), ("content", .str ""), ("orig", .obj []), ("data", .obj [])]

/-- `utils.dataProps`. -/
def dataProps : List String := ["locals", "data"]

/-- `utils.fileKeys = Object.keys(utils.file)`. -/
def fileKeys : List String := okeys file

/-- `utils.diffKeys(o, props)`: keys of `o` (plus `props`) that are not
canonical file keys. -/
def diffKeys (o : JObj) (props : List String) : List String :=
  (okeys o ++ props).filter (fun k => k ∉ fileKeys)

/-- `utils.flattenObject(o, key)`: if `o` owns `key`, merge `o[key]` into
`o` and delete `key`; otherwise return `o` unchanged. -/
def flattenObject (o : JObj) (key : String) : JObj :=
  match oget o key with
  | some v => odel (mergeTop o v) key
  | none => o

/-- `utils.mergeData(obj, locals)`: pick the `locals`/`data` properties,
merge them (with `locals` last) into a fresh object, and flatten its
`data` key. -/
def mergeData (objv : JVal) (locals : JObj) : JVal :=
  let o := opick (asObj objv) dataProps
  let d := mergeO (mergeO [] o) locals
  .obj (flattenObject d "data")

/-- `utils.siftKeys(obj, props)` up to the `defineGetter` call: merge the
defaults under `obj`, pick the canonical keys, and rebuild `orig` from the
old `orig` and the overflow keys.  The getter installed on `orig.content`
is accounted for by the `sifted` constructor of `FileResult`. -/
def siftKeys (o : JObj) (props : List String) : JObj :=
  let objm := mergeO (mergeO [] file) o
  let diff := diffKeys objm props
  let o2 := opick objm fileKeys
  let origBase := mergeTop (mergeTop [] ((oget o2 "orig").getD .null)) (.obj (opick objm diff))
  oset o2 "orig" (.obj origBase)

/-- The value returned by `extendFile`:
* `plain o` — the shared default record (`utils.file`), returned by
  reference on falsy input; its `orig` has no derived accessor;
* `sifted o` — a record produced by `siftKeys`, whose `orig` carries the
  enumerable read-only accessor `content` mirroring the record's own
  `content` (the stored `orig` entry of `o` holds the pre-accessor object);
* `error` — a strict-mode `TypeError` (property assignment onto a truthy
  non-string primitive). -/
inductive FileResult : Type where
  | plain : JObj → FileResult
  | sifted : JObj → FileResult
  | error : String → FileResult
deriving Repr

/-- Result record plus the caller's `file` argument as it stands after the
call (the object branch mutates the argument in place). -/
structure EFOut : Type where
  result : FileResult
  fileAfter : Option JVal

/-- `utils.extendFile(file, options)`.  The `file` argument is `none` for
`undefined`; `options` is `none` for `undefined` (then `_.extend({},
options)` yields `{}`). -/
def extendFile (f : Option JVal) (options : Option JObj) : EFOut :=
  let opts : JObj := options.getD []
  if falsyArg f then ⟨.plain file, f⟩
  else
    match f with
    | some (.str s) =>
      let o : JObj := [("content", .str s)]
      let o2 := oset o "data" (mergeData (.obj o) opts)
      ⟨.sifted (siftKeys o2 []), f⟩
    | some (.obj m) =>
      let o :=
        if truthy (oget m "original") then
          odel (oset m "orig" ((oget m "original").getD .null)) "original"
        else m
      let o2 := oset o "data" (mergeData (.obj o) opts)
      ⟨.sifted (siftKeys o2 []), some (.obj o2)⟩
    | _ => ⟨.error "TypeError", f⟩

/-! ## Observables on results

Reads and writes on the returned record, accounting for the
`defineGetter` accessor on `orig.content` of sifted records. -/

/-- The stored `orig` object of a record. -/
def origBaseOf (o : JObj) : JObj :=
  match oget o "orig" with
  | some (.obj g) => g
  | _ => []

/-- Own enumerable top-level keys of the returned record. -/
def topKeys : FileResult → List String
  | .plain o => okeys o
  | .sifted o => okeys o
  | .error _ => []

/-- Top-level property read on the returned record. -/
def getField : FileResult → String → Option JVal
  | .plain o, k => oget o k
  | .sifted o, k => oget o k
  | .error _, _ => none

/-- Own enumerable keys of the record's `orig` (the accessor `content` is
enumerable; `defineProperty` keeps the position of an existing key and
appends a fresh one). -/
def origKeys : FileResult → List String
  | .plain o => okeys (origBaseOf o)
  | .sifted o =>
    if "content" ∈ okeys (origBaseOf o) then okeys (origBaseOf o)
    else okeys (origBaseOf o) ++ ["content"]
  | .error _ => []

/-- Property read on the record's `orig`: on a sifted record the key
`content` is the accessor and returns the record's current `content`. -/
def readOrig : FileResult → String → Option JVal
  | .plain o, k => oget (origBaseOf o) k
  | .sifted o, k => if k = "content" then oget o "content" else oget (origBaseOf o) k
  | .error _, _ => none

/-- Assignment to the record's own `content` field. -/
def setContent : FileResult → JVal → FileResult
  | .plain o, v => .plain (oset o "content" v)
  | .sifted o, v => .sifted (oset o "content" v)
  | .error m, _ => .error m

/-- Assignment to `orig.content`: a plain assignment on the shared default,
a silent no-op through the accessor's empty setter on a sifted record. -/
def writeOrigContent : FileResult → JVal → FileResult
  | .plain o, v => .plain (oset o "orig" (.obj (oset (origBaseOf o) "content" v)))
  | .sifted o, _ => .sifted o
  | .error m, _ => .error m

/-- The returned record as a plain value, reading every property once
(materialising the accessor at its current value); this is what a second
`extendFile` call observes when handed the record. -/
def materializeRes : FileResult → JVal
  | .plain o => .obj o
  | .sifted o =>
    .obj (oset o "orig" (.obj (oset (origBaseOf o) "content" ((oget o "content").getD .null))))
  | .error _ => .null

/-- Read one key inside the record's `data` mapping. -/
def dataGet (r : FileResult) (k : String) : Option JVal :=
  match getField r "data" with
  | some (.obj dd) => oget dd k
  | _ => none

/-- Whether the call raised. -/
def isError : FileResult → Bool
  | .error _ => true
  | _ => false

/-- Observable equality of two returned records: same top-level key list,
same `path`/`content`/`data` values, same `orig` key list and same reads
through `orig` (accessor included). -/
def obsEq (a b : FileResult) : Prop :=
  topKeys a = topKeys b ∧
  getField a "path" = getField b "path" ∧
  getField a "content" = getField b "content" ∧
  getField a "data" = getField b "data" ∧
  origKeys a = origKeys b ∧
  ∀ k : String, readOrig a k = readOrig b k

/-- The inputs on which `extendFile` completes without raising: falsy
values (which short-circuit to the shared default), strings, and objects.
A truthy non-string non-object primitive raises a strict-mode
`TypeError` when `o.data = ...` assigns onto it. -/
def inputOk (f : Option JVal) : Bool :=
  falsyArg f ||
    (match f with
     | some (.str _) => true
     | some (.obj _) => true
     | _ => false)

/-- Well-formedness of an optional argument. -/
def wfArg : Option JVal → Bool
  | none => true
  | some v => wfV v

/-! ## Sanity examples (concrete runs of the transcription) -/

example :
    dataGet (extendFile (some (.obj [("content", .str "foo"),
      ("data", .obj [("a", .num 1)])])) (some [("locals", .obj [("a", .num 2)])])).result "a"
      = some (.num 1) := rfl

example :
    getField (extendFile (some (.obj [("content", .str "foo"),
      ("locals", .obj [("a", .num 1)])])) none).result "data"
      = some (.obj [("locals", .obj [("a", .num 1)])]) := rfl

example : (extendFile (some (.str "")) none).result = .plain file := rfl

example : isError (extendFile (some (.num 42)) none).result = true := rfl

example :
    topKeys (extendFile (some (.str "foo")) none).result
      = ["path", "content", "orig", "data"] := rfl

example :
    readOrig (extendFile (some (.str "foo")) none).result "content"
      = some (.str "foo") := rfl

/-! ## Lemmas about the object model -/

@[simp]
theorem okeys_nil : okeys ([] : JObj) = [] := rfl

@[simp]
theorem okeys_cons (k : String) (v : JVal) (t : JObj) :
    okeys ((k, v) :: t) = k :: okeys t := rfl

@[simp]
theorem okeys_append (a b : JObj) : okeys (a ++ b) = okeys a ++ okeys b := by
  simp [okeys]

theorem mem_okeys_iff (o : JObj) (q : String) : q ∈ okeys o ↔ (oget o q).isSome := by
  induction o with
  | nil => simp [oget]
  | cons p t ih =>
    obtain ⟨k, v⟩ := p
    by_cases hk : k = q
    · subst hk; simp [oget]
    · rw [okeys_cons, List.mem_cons]
      simp [oget, hk, Ne.symm hk, ih]

theorem oget_eq_none_of_not_mem (o : JObj) {q : String} (h : q ∉ okeys o) :
    oget o q = none := by
  have h2 := (mem_okeys_iff o q).not.mp h
  cases hg : oget o q with
  | none => rfl
  | some v => rw [hg] at h2; simp at h2

theorem mem_okeys_of_oget {o : JObj} {q : String} {v : JVal} (h : oget o q = some v) :
    q ∈ okeys o := by
  rw [mem_okeys_iff, h]; rfl

theorem oget_oset_self (o : JObj) (q : String) (v : JVal) : oget (oset o q v) q = some v := by
  induction o with
  | nil => simp [oset, oget]
  | cons p t ih =>
    obtain ⟨k, w⟩ := p
    by_cases hk : k = q
    · subst hk; simp [oset, oget]
    · simp [oset, oget, hk, ih]

theorem oget_oset_other (o : JObj) {q k : String} (v : JVal) (h : q ≠ k) :
    oget (oset o k v) q = oget o q := by
  induction o with
  | nil => simp [oset, oget, Ne.symm h]
  | cons p t ih =>
    obtain ⟨k1, w⟩ := p
    by_cases hk : k1 = k
    · subst hk; simp [oset, oget, Ne.symm h]
    · by_cases hq : k1 = q
      · subst hq; simp [oset, oget, hk]
      · simp [oset, oget, hk, hq, ih]

theorem mem_okeys_oset (o : JObj) (q k : String) (v : JVal) :
    q ∈ okeys (oset o k v) ↔ q ∈ okeys o ∨ q = k := by
  induction o with
  | nil => simp [oset]
  | cons p t ih =>
    obtain ⟨k1, w⟩ := p
    by_cases hk : k1 = k
    · subst hk
      rw [oset, if_pos rfl]
      simp only [okeys_cons, List.mem_cons]
      tauto
    · rw [oset, if_neg hk]
      simp only [okeys_cons, List.mem_cons, ih]
      tauto

theorem okeys_oset_of_mem (o : JObj) {k : String} (v : JVal) (h : k ∈ okeys o) :
    okeys (oset o k v) = okeys o := by
  induction o with
  | nil => simp at h
  | cons p t ih =>
    obtain ⟨k1, w⟩ := p
    by_cases hk : k1 = k
    · subst hk; simp [oset]
    · rw [okeys_cons, List.mem_cons] at h
      rcases h with h | h
      · exact absurd h.symm hk
      · rw [oset, if_neg hk, okeys_cons, okeys_cons, ih h]

theorem okeys_oset_of_not_mem (o : JObj) {k : String} (v : JVal) (h : k ∉ okeys o) :
    okeys (oset o k v) = okeys o ++ [k] := by
  induction o with
  | nil => simp [oset]
  | cons p t ih =>
    obtain ⟨k1, w⟩ := p
    rw [okeys_cons, List.mem_cons] at h
    push_neg at h
    rw [oset, if_neg (fun hh => h.1 hh.symm), okeys_cons, okeys_cons, ih h.2]
    rfl

theorem oset_of_oget_none (o : JObj) {k : String} (v : JVal) (h : oget o k = none) :
    oset o k v = o ++ [(k, v)] := by
  induction o with
  | nil => simp [oset]
  | cons p t ih =>
    obtain ⟨k1, w⟩ := p
    by_cases hk : k1 = k
    · subst hk; simp [oget] at h
    · rw [oget, if_neg hk] at h
      rw [oset, if_neg hk, ih h]
      rfl

theorem oset_of_oget_some (o : JObj) {k : String} {v : JVal} (h : oget o k = some v) :
    oset o k v = o := by
  induction o with
  | nil => simp [oget] at h
  | cons p t ih =>
    obtain ⟨k1, w⟩ := p
    by_cases hk : k1 = k
    · subst hk
      rw [oget, if_pos rfl, Option.some_inj] at h
      rw [oset, if_pos rfl, h]
    · rw [oget, if_neg hk] at h
      rw [oset, if_neg hk, ih h]

theorem oget_odel_self (o : JObj) (k : String) : oget (odel o k) k = none := by
  induction o with
  | nil => simp [odel, oget]
  | cons p t ih =>
    obtain ⟨k1, w⟩ := p
    by_cases hk : k1 = k
    · subst hk; simpa [odel, List.filter] using ih
    · simpa [odel, List.filter, hk, oget] using ih

theorem oget_odel_other (o : JObj) {q k : String} (h : q ≠ k) :
    oget (odel o k) q = oget o q := by
  induction o with
  | nil => simp [odel, oget]
  | cons p t ih =>
    obtain ⟨k1, w⟩ := p
    by_cases hk : k1 = k
    · subst hk; simpa [odel, List.filter, oget, Ne.symm h] using ih
    · by_cases hq : k1 = q
      · subst hq; simp [odel, List.filter, hk, oget]
      · simpa [odel, List.filter, hk, oget, hq] using ih

theorem mem_okeys_odel (o : JObj) (q k : String) :
    q ∈ okeys (odel o k) ↔ q ∈ okeys o ∧ q ≠ k := by
  constructor
  · intro h
    rw [mem_okeys_iff] at h
    by_cases hq : q = k
    · subst hq; rw [oget_odel_self] at h; simp at h
    · rw [oget_odel_other o hq] at h
      exact ⟨(mem_okeys_iff o q).mpr h, hq⟩
  · rintro ⟨h, hq⟩
    rw [mem_okeys_iff] at h ⊢
    rwa [oget_odel_other o hq]

theorem odel_append (a b : JObj) (k : String) :
    odel (a ++ b) k = odel a k ++ odel b k := by
  simp [odel, List.filter_append]

theorem odel_odel (o : JObj) (k : String) : odel (odel o k) k = odel o k := by
  induction o with
  | nil => simp [odel]
  | cons p t ih =>
    obtain ⟨k1, w⟩ := p
    by_cases hk : k1 = k
    · subst hk; simpa [odel, List.filter] using ih
    · simpa [odel, List.filter, hk] using ih

theorem odel_oset_same (o : JObj) (k : String) (v : JVal) :
    odel (oset o k v) k = odel o k := by
  induction o with
  | nil => simp [oset, odel, List.filter]
  | cons p t ih =>
    obtain ⟨k1, w⟩ := p
    by_cases hk : k1 = k
    · subst hk; simp [oset, odel, List.filter]
    · simpa [oset, odel, List.filter, hk] using ih

theorem oget_append (a b : JObj) (q : String) :
    oget (a ++ b) q = (oget a q).elim (oget b q) some := by
  induction a with
  | nil => simp [oget]
  | cons p t ih =>
    obtain ⟨k, v⟩ := p
    by_cases hk : k = q
    · subst hk; simp [oget]
    · simpa [oget, hk] using ih

theorem oget_opick (o : JObj) (props : List String) (q : String) :
    oget (opick o props) q = if q ∈ props then oget o q else none := by
  induction props with
  | nil => simp [opick, oget]
  | cons p t ih =>
    by_cases hq : p = q
    · subst hq
      cases hg : oget o p with
      | some v => simp [opick, hg, oget]
      | none => simp [opick, hg, ih]
    · cases hg : oget o p with
      | some v => simp [opick, hg, oget, hq, ih, Ne.symm hq]
      | none => simp [opick, hg, ih, Ne.symm hq]

theorem okeys_opick (o : JObj) (props : List String) :
    okeys (opick o props) = props.filter (fun q => (oget o q).isSome) := by
  induction props with
  | nil => simp [opick]
  | cons p t ih =>
    cases hg : oget o p with
    | some v => rw [opick, hg, okeys_cons, ih, List.filter_cons]; simp [hg]
    | none => rw [opick, hg, ih, List.filter_cons]; simp [hg]

/-! ## Lemmas about `_.merge` -/

theorem mergeVal_none (sv : JVal) : mergeVal none sv = sv := by
  cases sv <;> rfl

theorem mergeVal_obj_obj (dm sm : JObj) :
    mergeVal (some (.obj dm)) (.obj sm) = .obj (mergeO dm sm) := rfl

theorem mergeVal_of_src_not_obj (dv : Option JVal) {sv : JVal}
    (h : ∀ sm, sv ≠ .obj sm) : mergeVal dv sv = sv := by
  cases sv with
  | obj sm => exact absurd rfl (h sm)
  | null => cases dv with
    | none => rfl
    | some v => cases v <;> rfl
  | bool b => cases dv with
    | none => rfl
    | some v => cases v <;> rfl
  | num n => cases dv with
    | none => rfl
    | some v => cases v <;> rfl
  | str s => cases dv with
    | none => rfl
    | some v => cases v <;> rfl

theorem mergeO_nil_right (d : JObj) : mergeO d [] = d := rfl

theorem mergeO_cons (d : JObj) (k : String) (sv : JVal) (t : JObj) :
    mergeO d ((k, sv) :: t) = mergeO (oset d k (mergeVal (oget d k) sv)) t := rfl

theorem oget_mergeO (d s : JObj) (q : String) (hs : (okeys s).Nodup) :
    oget (mergeO d s) q =
      (oget s q).elim (oget d q) (fun sv => some (mergeVal (oget d q) sv)) := by
  induction s generalizing d with
  | nil => simp [mergeO_nil_right, oget]
  | cons p t ih =>
    obtain ⟨k, sv⟩ := p
    rw [okeys_cons, List.nodup_cons] at hs
    rw [mergeO_cons, ih _ hs.2]
    by_cases hq : q = k
    · subst hq
      rw [oget_eq_none_of_not_mem t hs.1, oget, if_pos rfl, oget_oset_self]
      rfl
    · rw [oget_oset_other d _ hq, oget, if_neg (fun hh => hq hh.symm)]

theorem mem_okeys_mergeO_left (d s : JObj) {q : String} (h : q ∈ okeys d) :
    q ∈ okeys (mergeO d s) := by
  induction s generalizing d with
  | nil => exact h
  | cons p t ih =>
    obtain ⟨k, sv⟩ := p
    rw [mergeO_cons]
    exact ih _ ((mem_okeys_oset _ q k _).mpr (Or.inl h))

theorem mem_okeys_mergeO (d s : JObj) {q : String} (h : q ∈ okeys (mergeO d s)) :
    q ∈ okeys d ∨ q ∈ okeys s := by
  induction s generalizing d with
  | nil => exact Or.inl h
  | cons p t ih =>
    obtain ⟨k, sv⟩ := p
    rw [mergeO_cons] at h
    rcases ih _ h with h2 | h2
    · rcases (mem_okeys_oset d q k _).mp h2 with h3 | h3
      · exact Or.inl h3
      · subst h3; exact Or.inr (by simp)
    · exact Or.inr (by simp [h2])

theorem mem_okeys_mergeO_right (d s : JObj) {q : String} (h : q ∈ okeys s) :
    q ∈ okeys (mergeO d s) := by
  induction s generalizing d with
  | nil => simp at h
  | cons p t ih =>
    obtain ⟨k, sv⟩ := p
    rw [okeys_cons, List.mem_cons] at h
    rw [mergeO_cons]
    rcases h with h | h
    · subst h
      exact mem_okeys_mergeO_left _ t ((mem_okeys_oset _ q q _).mpr (Or.inr rfl))
    · exact ih _ h

theorem mergeO_disjoint (d s : JObj) (hs : (okeys s).Nodup)
    (hd : ∀ q ∈ okeys s, oget d q = none) : mergeO d s = d ++ s := by
  induction s generalizing d with
  | nil => simp [mergeO_nil_right]
  | cons p t ih =>
    obtain ⟨k, sv⟩ := p
    rw [okeys_cons, List.nodup_cons] at hs
    have hk : oget d k = none := hd k (by simp)
    rw [mergeO_cons, hk, mergeVal_none, oset_of_oget_none d sv hk]
    rw [ih _ hs.2]
    · simp
    · intro q hq
      rw [oget_append, hd q (by simp [hq])]
      have hkq : k ≠ q := by
        intro hh
        subst hh
        exact hs.1 hq
      have h1 : oget [(k, sv)] q = none := by
        rw [oget, if_neg hkq]
        rfl
      simpa using h1

theorem mergeO_nil_left (s : JObj) (hs : (okeys s).Nodup) : mergeO [] s = s := by
  have h := mergeO_disjoint [] s hs (fun q _ => rfl)
  simpa using h

theorem odel_mergeO (d s : JObj) (key : String) (hs : (okeys s).Nodup)
    (hd : ∀ q ∈ okeys s, q ≠ key → oget d q = none) :
    odel (mergeO d s) key = odel d key ++ odel s key := by
  induction s generalizing d with
  | nil => simp [mergeO_nil_right, odel]
  | cons p t ih =>
    obtain ⟨k, sv⟩ := p
    rw [okeys_cons, List.nodup_cons] at hs
    by_cases hk : k = key
    · subst hk
      rw [mergeO_cons, ih _ hs.2]
      · rw [odel_oset_same]
        have hdrop : odel ((k, sv) :: t) k = odel t k := by
          simp [odel, List.filter]
        rw [hdrop]
      · intro q hq hqk
        rw [oget_oset_other d _ hqk]
        exact hd q (by simp [hq]) hqk
    · have hknone : oget d k = none := hd k (by simp) hk
      rw [mergeO_cons, hknone, mergeVal_none, oset_of_oget_none d sv hknone, ih _ hs.2]
      · have hkeep : odel ((k, sv) :: t) key = (k, sv) :: odel t key := by
          simp [odel, List.filter, hk]
        rw [odel_append, hkeep]
        have hsingle : odel [(k, sv)] key = [(k, sv)] := by
          simp [odel, List.filter, hk]
        rw [hsingle]
        simp
      · intro q hq hqk
        rw [oget_append, hd q (by simp [hq]) hqk]
        have hkq : k ≠ q := by
          intro hh
          subst hh
          exact hs.1 hq
        have h1 : oget [(k, sv)] q = none := by
          rw [oget, if_neg hkq]
          rfl
        simpa using h1

/-! ## Well-formedness preservation -/

theorem wfO_nil : wfO [] = true := rfl

theorem wfO_cons_iff (k : String) (v : JVal) (t : JObj) :
    wfO ((k, v) :: t) = true ↔ oget t k = none ∧ wfV v = true ∧ wfO t = true := by
  rw [wfO]
  simp [Bool.and_eq_true, Option.isNone_iff_eq_none, and_assoc]

theorem wfO_nodup (o : JObj) (h : wfO o = true) : (okeys o).Nodup := by
  induction o with
  | nil => simp
  | cons p t ih =>
    obtain ⟨k, v⟩ := p
    rw [wfO_cons_iff] at h
    rw [okeys_cons, List.nodup_cons]
    refine ⟨?_, ih h.2.2⟩
    intro hmem
    rw [mem_okeys_iff, h.1] at hmem
    simp at hmem

theorem wfV_oget (o : JObj) (h : wfO o = true) {q : String} {v : JVal}
    (hg : oget o q = some v) : wfV v = true := by
  induction o with
  | nil => simp [oget] at hg
  | cons p t ih =>
    obtain ⟨k, w⟩ := p
    rw [wfO_cons_iff] at h
    by_cases hk : k = q
    · subst hk
      rw [oget, if_pos rfl, Option.some_inj] at hg
      exact hg ▸ h.2.1
    · rw [oget, if_neg hk] at hg
      exact ih h.2.2 hg

theorem wfO_oset (o : JObj) (h : wfO o = true) {k : String} {v : JVal}
    (hv : wfV v = true) : wfO (oset o k v) = true := by
  induction o with
  | nil => rw [oset, wfO_cons_iff]; exact ⟨rfl, hv, rfl⟩
  | cons p t ih =>
    obtain ⟨k1, w⟩ := p
    rw [wfO_cons_iff] at h
    by_cases hk : k1 = k
    · subst hk
      rw [oset, if_pos rfl, wfO_cons_iff]
      exact ⟨h.1, hv, h.2.2⟩
    · rw [oset, if_neg hk, wfO_cons_iff]
      refine ⟨?_, h.2.1, ih h.2.2⟩
      rw [oget_oset_other t _ hk, h.1]

theorem wfO_odel (o : JObj) (h : wfO o = true) (k : String) : wfO (odel o k) = true := by
  induction o with
  | nil => rfl
  | cons p t ih =>
    obtain ⟨k1, w⟩ := p
    rw [wfO_cons_iff] at h
    by_cases hk : k1 = k
    · subst hk
      have hdrop : odel ((k1, w) :: t) k1 = odel t k1 := by simp [odel, List.filter]
      rw [hdrop]
      exact ih h.2.2
    · have hkeep : odel ((k1, w) :: t) k = (k1, w) :: odel t k := by
        simp [odel, List.filter, hk]
      rw [hkeep, wfO_cons_iff]
      refine ⟨?_, h.2.1, ih h.2.2⟩
      rw [oget_odel_other t hk, h.1]

theorem wfO_opick (o : JObj) (props : List String) (h : wfO o = true)
    (hp : props.Nodup) : wfO (opick o props) = true := by
  induction props with
  | nil => rfl
  | cons p t ih =>
    rw [List.nodup_cons] at hp
    cases hg : oget o p with
    | none => rw [opick, hg]; exact ih hp.2
    | some v =>
      rw [opick, hg, wfO_cons_iff]
      refine ⟨?_, wfV_oget o h hg, ih hp.2⟩
      rw [oget_opick, if_neg hp.1]

mutual
theorem wfV_mergeVal : ∀ (dv : Option JVal) (sv : JVal),
    (∀ v, dv = some v → wfV v = true) → wfV sv = true → wfV (mergeVal dv sv) = true
  | some (.obj dm), .obj sm, hd, hs => by
    have h1 : wfO dm = true := by
      have := hd _ rfl
      rwa [wfV] at this
    have h2 : wfO sm = true := by rwa [wfV] at hs
    rw [mergeVal_obj_obj, wfV]
    exact wfO_mergeO dm sm h1 h2
  | none, sv, _, hs => by rw [mergeVal_none]; exact hs
  | some .null, sv, _, hs => by cases sv <;> exact hs
  | some (.bool b), sv, _, hs => by cases sv <;> exact hs
  | some (.num n), sv, _, hs => by cases sv <;> exact hs
  | some (.str s), sv, _, hs => by cases sv <;> exact hs
  | some (.obj dm), .null, _, hs => hs
  | some (.obj dm), .bool b, _, hs => hs
  | some (.obj dm), .num n, _, hs => hs
  | some (.obj dm), .str s, _, hs => hs
theorem wfO_mergeO : ∀ (d s : JObj), wfO d = true → wfO s = true → wfO (mergeO d s) = true
  | d, [], hd, _ => by rwa [mergeO_nil_right]
  | d, (k, sv) :: t, hd, hs => by
    rw [wfO_cons_iff] at hs
    have hv : wfV (mergeVal (oget d k) sv) = true :=
      wfV_mergeVal (oget d k) sv (fun v hv => wfV_oget d hd hv) hs.2.1
    have hd2 : wfO (oset d k (mergeVal (oget d k) sv)) = true := wfO_oset d hd hv
    rw [mergeO_cons]
    exact wfO_mergeO _ t hd2 hs.2.2
end

theorem wfO_file : wfO file = true := rfl

theorem nodup_fileKeys : fileKeys.Nodup := by decide

theorem nodup_dataProps : dataProps.Nodup := by decide

theorem wfO_mergeTop (d : JObj) (v : JVal) (hd : wfO d = true) (hv : wfV v = true) :
    wfO (mergeTop d v) = true := by
  cases v with
  | obj m =>
    rw [mergeTop]
    exact wfO_mergeO d m hd (by rwa [wfV] at hv)
  | null => exact hd
  | bool b => exact hd
  | num n => exact hd
  | str s => exact hd

theorem wfO_flattenObject (o : JObj) (key : String) (h : wfO o = true) :
    wfO (flattenObject o key) = true := by
  rw [flattenObject]
  cases hg : oget o key with
  | none => exact h
  | some v =>
    exact wfO_odel (mergeTop o v) (wfO_mergeTop o v h (wfV_oget o h hg)) key

theorem wfV_asObj (v : JVal) (h : wfV v = true) : wfO (asObj v) = true := by
  cases v with
  | obj m => rwa [wfV] at h
  | null => rfl
  | bool b => rfl
  | num n => rfl
  | str s => rfl

theorem wfV_obj (m : JObj) (h : wfO m = true) : wfV (.obj m) = true := h

theorem wfV_mergeData (v : JVal) (l : JObj) (hv : wfV v = true) (hl : wfO l = true) :
    wfV (mergeData v l) = true := by
  rw [mergeData, wfV]
  have h1 : wfO (opick (asObj v) dataProps) = true :=
    wfO_opick (asObj v) dataProps (wfV_asObj v hv) nodup_dataProps
  have h2 : wfO (mergeO (mergeO [] (opick (asObj v) dataProps)) l) = true :=
    wfO_mergeO _ l (wfO_mergeO [] _ rfl h1) hl
  exact wfO_flattenObject _ "data" h2

/-! ## Lemmas about `siftKeys` -/

theorem mergeO_nil_file : mergeO [] file = file := rfl

theorem oget_file_of_mem {k : String} (h : k ∈ fileKeys) : (oget file k).isSome := by
  fin_cases h <;> rfl

theorem sift_present (o : JObj) (h : wfO o = true) {k : String} (hk : k ∈ fileKeys) :
    (oget (mergeO (mergeO [] file) o) k).isSome := by
  rw [mergeO_nil_file, oget_mergeO file o k (wfO_nodup o h)]
  cases hg : oget o k with
  | some v => rfl
  | none => exact oget_file_of_mem hk

theorem okeys_sift_inner (o : JObj) (h : wfO o = true) :
    okeys (opick (mergeO (mergeO [] file) o) fileKeys) = fileKeys := by
  rw [okeys_opick]
  apply List.filter_eq_self.mpr
  intro k hk
  exact sift_present o h hk

theorem sift_topKeys (o : JObj) (props : List String) (h : wfO o = true) :
    okeys (siftKeys o props) = fileKeys := by
  rw [siftKeys]
  rw [okeys_oset_of_mem _ _ (by rw [okeys_sift_inner o h]; decide)]
  exact okeys_sift_inner o h

theorem oget_sift_of_ne_orig (o : JObj) (props : List String) {q : String}
    (hq : q ≠ "orig") :
    oget (siftKeys o props) q =
      if q ∈ fileKeys then oget (mergeO (mergeO [] file) o) q else none := by
  rw [siftKeys, oget_oset_other _ _ hq, oget_opick]

theorem origBaseOf_sift (o : JObj) (props : List String) :
    origBaseOf (siftKeys o props) =
      mergeTop
        (mergeTop []
          ((oget (opick (mergeO (mergeO [] file) o) fileKeys) "orig").getD .null))
        (.obj (opick (mergeO (mergeO [] file) o)
          (diffKeys (mergeO (mergeO [] file) o) props))) := by
  rw [siftKeys, origBaseOf, oget_oset_self]

theorem wfO_mergeFile (o : JObj) (h : wfO o = true) :
    wfO (mergeO (mergeO [] file) o) = true := by
  rw [mergeO_nil_file]
  exact wfO_mergeO file o wfO_file h

theorem nodup_diffKeys (o : JObj) (h : wfO o = true) :
    (diffKeys (mergeO (mergeO [] file) o) []).Nodup := by
  rw [diffKeys]
  exact List.Nodup.filter _ (by simpa using wfO_nodup _ (wfO_mergeFile o h))

theorem sift_overflow (o : JObj) (h : wfO o = true) {k : String}
    (hk : k ∈ okeys o) (hnc : k ∉ fileKeys) :
    k ∈ okeys (origBaseOf (siftKeys o [])) := by
  have hM : wfO (mergeO (mergeO [] file) o) = true := wfO_mergeFile o h
  have hkM : k ∈ okeys (mergeO (mergeO [] file) o) := by
    rw [mergeO_nil_file]
    exact mem_okeys_mergeO_right file o hk
  have hkdiff : k ∈ diffKeys (mergeO (mergeO [] file) o) [] := by
    rw [diffKeys]
    simp only [List.append_nil]
    rw [List.mem_filter]
    exact ⟨hkM, by simpa using hnc⟩
  have hpick :
      (oget (opick (mergeO (mergeO [] file) o)
        (diffKeys (mergeO (mergeO [] file) o) [])) k).isSome := by
    rw [oget_opick, if_pos hkdiff]
    exact (mem_okeys_iff _ k).mp hkM
  rw [origBaseOf_sift]
  rw [mergeTop]
  have hnodup :
      (okeys (opick (mergeO (mergeO [] file) o)
        (diffKeys (mergeO (mergeO [] file) o) []))).Nodup := by
    rw [okeys_opick]
    exact List.Nodup.filter _ (nodup_diffKeys o h)
  rw [mem_okeys_iff]
  rw [oget_mergeO _ _ k hnodup]
  cases hg : oget (opick (mergeO (mergeO [] file) o)
      (diffKeys (mergeO (mergeO [] file) o) [])) k with
  | none => rw [hg] at hpick; simp at hpick
  | some v => rfl

theorem mergeTop_obj (d m : JObj) : mergeTop d (.obj m) = mergeO d m := rfl

/-! ## Claims -/

/-- C2, counterexample.  The claim states that
`extendFile({content: 'foo', data: {a: 1}}, {locals: {a: 2}})` yields a
record whose `data.a` equals `2`.  On the code it equals `1`: this
variant of `extendFile` passes the whole `options` object to `mergeData`
without extracting its `locals` sub-mapping, and `flattenObject` only
flattens the `data` key, so `{locals: {a: 2}}` stays nested inside
`data` and the record's own `data.a = 1` wins at the top of `data`. -/
theorem c2_counterexample :
    dataGet (extendFile (some (.obj [("content", .str "foo"),
        ("data", .obj [("a", .num 1)])]))
      (some [("locals", .obj [("a", .num 2)])])).result "a" = some (.num 1) ∧
    dataGet (extendFile (some (.obj [("content", .str "foo"),
        ("data", .obj [("a", .num 1)])]))
      (some [("locals", .obj [("a", .num 2)])])).result "a" ≠ some (.num 2) := by
  refine ⟨rfl, ?_⟩
  intro h
  have h1 : (some (JVal.num 1) : Option JVal) = some (.num 2) := h
  injection h1 with h2
  injection h2 with h3
  omega

/-- C2, amended.  The whole `options` mapping (not its `locals`
sub-mapping) is the override source merged by `mergeData`:
`extendFile({content: 'foo', data: {a: 1}}, {locals: {a: 2}})` yields
`data = {locals: {a: 2}, a: 1}` — so `data.a = 1` and the caller's
locals survive nested under `data.locals`. -/
theorem c2_amended :
    getField (extendFile (some (.obj [("content", .str "foo"),
        ("data", .obj [("a", .num 1)])]))
      (some [("locals", .obj [("a", .num 2)])])).result "data" =
      some (.obj [("locals", .obj [("a", .num 2)]), ("a", .num 1)]) := rfl

/-- C3, counterexample.  The claim states that
`extendFile({content: 'foo', locals: {a: 1}})` yields `data = {a: 1}`
(the `locals` wrapper key does not survive inside `data`).  On the code
`data = {locals: {a: 1}}`: `mergeData` picks the record's `locals`
property under its own name and `flattenObject` only flattens the key
`data`, never `locals`. -/
theorem c3_counterexample :
    getField (extendFile (some (.obj [("content", .str "foo"),
        ("locals", .obj [("a", .num 1)])])) none).result "data"
      = some (.obj [("locals", .obj [("a", .num 1)])]) ∧
    getField (extendFile (some (.obj [("content", .str "foo"),
        ("locals", .obj [("a", .num 1)])])) none).result "data"
      ≠ some (.obj [("a", .num 1)]) := by
  refine ⟨rfl, ?_⟩
  intro h
  have h1 : (some (JVal.obj [("locals", .obj [("a", .num 1)])]) : Option JVal) =
      some (.obj [("a", .num 1)]) := h
  injection h1 with h2
  injection h2 with h3
  injection h3 with h4 h5
  injection h4 with h6 h7
  exact absurd h6 (by decide)

/-- C3, amended.  `extendFile({content: 'foo', locals: {a: 1}})`
yields `data = {locals: {a: 1}}` (the `locals` wrapper key survives
inside `data`); no `locals` key remains at the top level — the top-level
keys are exactly the canonical ones and the `locals` property is
relocated into `orig` as overflow. -/
theorem c3_amended :
    getField (extendFile (some (.obj [("content", .str "foo"),
        ("locals", .obj [("a", .num 1)])])) none).result "data"
      = some (.obj [("locals", .obj [("a", .num 1)])]) ∧
    topKeys (extendFile (some (.obj [("content", .str "foo"),
        ("locals", .obj [("a", .num 1)])])) none).result = fileKeys ∧
    readOrig (extendFile (some (.obj [("content", .str "foo"),
        ("locals", .obj [("a", .num 1)])])) none).result "locals"
      = some (.obj [("a", .num 1)]) :=
  ⟨rfl, rfl, rfl⟩

/-- C4, counterexample.  The claim states `extendFile` never throws,
in particular on a truthy non-object non-string primitive such as `42`.
The module runs under `'use strict'`, so `o.data = ...` with `o = 42`
raises a `TypeError`. -/
theorem c4_counterexample :
    isError (extendFile (some (.num 42)) none).result = true := rfl

/-- C4, amended.  `extendFile` completes without raising for every
`undefined`, `null`, falsy-primitive, string, or object `file`; the
truthy non-string non-object primitives are the sole raising inputs
(strict-mode `TypeError` on the `o.data` assignment). -/
theorem c4_amended (f : Option JVal) (opts : Option JObj) (h : inputOk f = true) :
    isError (extendFile f opts).result = false := by
  cases f with
  | none => rfl
  | some v =>
    cases v with
    | null => rfl
    | bool b =>
      have h2 : (!b || false) = true := h
      have hb : b = false := by simpa using h2
      subst hb
      rfl
    | num n =>
      have h2 : (!(n != 0) || false) = true := h
      have hn : n = 0 := by simpa using h2
      subst hn
      rfl
    | str s =>
      by_cases hs : s = ""
      · subst hs; rfl
      · have hfa : falsyArg (some (.str s)) = false := by
          simp [falsyArg, truthy, hs]
        simp only [extendFile, hfa]
        simp [isError]
    | obj m => rfl

/-- Witness for C4 at `file = 'foo'`. -/
theorem c4_witness :
    inputOk (some (.str "foo")) = true ∧
    isError (extendFile (some (.str "foo")) none).result = false :=
  ⟨rfl, c4_amended (some (.str "foo")) none rfl⟩

/-- C5, counterexample.  The claim quantifies over every record
returned by `extendFile`.  For falsy input the shared default record is
returned and it carries no derived accessor: reading `orig.content`
yields `undefined` while `content` is `''`, and a write to
`orig.content` actually lands (so it is not ignored). -/
theorem c5_counterexample :
    readOrig (extendFile none none).result "content" = none ∧
    getField (extendFile none none).result "content" = some (.str "") ∧
    readOrig (writeOrigContent (extendFile none none).result (.str "x")) "content"
      = some (.str "x") :=
  ⟨rfl, rfl, rfl⟩

/-- C5, amended.  On every record returned by `extendFile` for a
truthy (non-empty string or object) `file`, `orig.content` is the
derived read-only view: it reads as the record's current `content`
(also after `content` is reassigned), and writes to it are silently
ignored — the record is unchanged. -/
theorem c5_amended (f : Option JVal) (opts : Option JObj)
    (h : (∃ s, f = some (.str s) ∧ s ≠ "") ∨ (∃ m, f = some (.obj m))) :
    readOrig (extendFile f opts).result "content"
      = getField (extendFile f opts).result "content" ∧
    (∀ v, readOrig (setContent (extendFile f opts).result v) "content" = some v) ∧
    (∀ w, writeOrigContent (extendFile f opts).result w = (extendFile f opts).result) := by
  obtain ⟨r, hr⟩ : ∃ r, (extendFile f opts).result = .sifted r := by
    rcases h with ⟨s, hf, hs⟩ | ⟨m, hf⟩
    · subst hf
      have hfa : falsyArg (some (.str s)) = false := by
        simp [falsyArg, truthy, hs]
      refine ⟨siftKeys (oset [("content", .str s)] "data"
        (mergeData (.obj [("content", .str s)]) (opts.getD []))) [], ?_⟩
      simp only [extendFile, hfa]
      simp
    · subst hf
      exact ⟨_, rfl⟩
  rw [hr]
  refine ⟨rfl, ?_, ?_⟩
  · intro v
    simp [setContent, readOrig, oget_oset_self]
  · intro w
    rfl

/-- Witness for C5 at `file = 'foo'`. -/
theorem c5_witness :
    readOrig (extendFile (some (.str "foo")) none).result "content"
      = getField (extendFile (some (.str "foo")) none).result "content" ∧
    (∀ v, readOrig (setContent (extendFile (some (.str "foo")) none).result v) "content"
      = some v) ∧
    (∀ w, writeOrigContent (extendFile (some (.str "foo")) none).result w
      = (extendFile (some (.str "foo")) none).result) :=
  c5_amended (some (.str "foo")) none (Or.inl ⟨"foo", rfl, by decide⟩)

/-- C7, counterexample.  The claim states the empty string is not
falsy and takes the string branch, and that the returned default record
carries the derived `orig.content` view.  On the code `''` is falsy, so
`extendFile('')` short-circuits to the shared default `utils.file`,
which has no accessor on `orig` — reading `orig.content` yields
`undefined`. -/
theorem c7_counterexample :
    (extendFile (some (.str "")) none).result = .plain file ∧
    readOrig (extendFile (some (.str "")) none).result "content" = none :=
  ⟨rfl, rfl⟩

/-- C7, amended.  For every falsy `file` (`undefined`, `null`,
`false`, `0`, and also the empty string), `extendFile` returns the
shared default record — `path ''`, `content ''`, `data {}`, `orig {}` —
with no derived `orig.content` view on it. -/
theorem c7_amended (f : Option JVal) (opts : Option JObj) (h : falsyArg f = true) :
    (extendFile f opts).result = .plain file ∧
    readOrig (extendFile f opts).result "content" = none := by
  have h1 : (extendFile f opts).result = .plain file := by
    simp [extendFile, h]
  exact ⟨h1, by rw [h1]; rfl⟩

/-- Witness for C7 at `file = null`. -/
theorem c7_witness :
    falsyArg (some .null) = true ∧
    ((extendFile (some .null) none).result = .plain file ∧
      readOrig (extendFile (some .null) none).result "content" = none) :=
  ⟨rfl, c7_amended (some .null) none rfl⟩

/-- C9, counterexample.  The claim states `flattenObject(o, key)`
returns `o` unchanged when `o[key]` is not a mapping.  The code tests
only `hasOwnProperty`: with `o = {data: 5}` the merge skips the
primitive but the key is still deleted, so the result is `{}`, not
`{data: 5}`. -/
theorem c9_counterexample :
    flattenObject [("data", .num 5)] "data" = [] ∧
    flattenObject [("data", .num 5)] "data" ≠ [("data", .num 5)] :=
  ⟨rfl, by
    intro h
    have h1 : ([] : JObj) = [("data", JVal.num 5)] := h
    exact List.noConfusion h1⟩

/-- C9, amended.  `flattenObject(o, key)` returns `o` unchanged only
when `o` does not own `key`.  When `o` owns `key`, the key is removed in
every case; a non-mapping value is skipped by the merge (result
`odel o key`), while a mapping value `m` is deep-merged into the top
level with the nested values winning: for every key `q` of `m` (other
than `key` itself, assuming `m` does not recursively contain `key`),
the result at `q` is `m`'s value merged over `o`'s old value. -/
theorem c9_amended :
    (∀ (o : JObj) (key : String), oget o key = none → flattenObject o key = o) ∧
    (∀ (o : JObj) (key : String) (v : JVal), oget o key = some v →
      (∀ m, v ≠ .obj m) → flattenObject o key = odel o key) ∧
    (∀ (o : JObj) (key : String) (m : JObj), wfO o = true →
      oget o key = some (.obj m) → key ∉ okeys m →
      key ∉ okeys (flattenObject o key) ∧
      ∀ q sv, oget m q = some sv → q ≠ key →
        oget (flattenObject o key) q = some (mergeVal (oget o q) sv)) := by
  refine ⟨?_, ?_, ?_⟩
  · intro o key h
    simp only [flattenObject, h]
  · intro o key v h hno
    simp only [flattenObject, h]
    have hmt : mergeTop o v = o := by
      cases v with
      | obj m => exact absurd rfl (hno m)
      | null => rfl
      | bool b => rfl
      | num n => rfl
      | str s => rfl
    rw [hmt]
  · intro o key m ho hg hkm
    have hm : wfO m = true := by
      have := wfV_oget o ho hg
      rwa [wfV] at this
    have hnod : (okeys m).Nodup := wfO_nodup m hm
    constructor
    · simp only [flattenObject, hg, mergeTop_obj]
      rw [mem_okeys_odel]
      simp
    · intro q sv hq hqk
      simp only [flattenObject, hg, mergeTop_obj]
      rw [oget_odel_other _ hqk, oget_mergeO o m q hnod, hq]
      rfl

/-- Witness for C9: the three amended cases at concrete inputs. -/
theorem c9_witness :
    flattenObject [("a", .num 1)] "data" = [("a", .num 1)] ∧
    flattenObject [("data", .num 5), ("b", .num 7)] "data"
      = odel [("data", .num 5), ("b", .num 7)] "data" ∧
    ("data" ∉ okeys (flattenObject [("data", .obj [("x", .num 3)]), ("y", .num 9)] "data") ∧
      ∀ q sv, oget [("x", .num 3)] q = some sv → q ≠ "data" →
        oget (flattenObject [("data", .obj [("x", .num 3)]), ("y", .num 9)] "data") q
          = some (mergeVal (oget [("data", .obj [("x", .num 3)]), ("y", .num 9)] q) sv)) :=
  ⟨c9_amended.1 [("a", .num 1)] "data" rfl,
   c9_amended.2.1 [("data", .num 5), ("b", .num 7)] "data" (.num 5) rfl
     (fun m h => JVal.noConfusion h),
   c9_amended.2.2 [("data", .obj [("x", .num 3)]), ("y", .num 9)] "data" [("x", .num 3)]
     rfl rfl (by decide)⟩

/-! ## Helper lemmas for the quantified claims -/

theorem wfO_branch (m : JObj) (hm : wfO m = true) :
    wfO (if truthy (oget m "original") = true then
      odel (oset m "orig" ((oget m "original").getD .null)) "original" else m) = true := by
  split_ifs with ht
  · apply wfO_odel
    refine wfO_oset m hm ?_
    cases hg : oget m "original" with
    | none => rfl
    | some v =>
      have h2 := wfV_oget m hm hg
      exact h2
  · exact hm

theorem getField_sift_data (o : JObj) (h : wfO o = true) {dd : JObj}
    (hgd : oget o "data" = some (.obj dd)) (hddw : wfO dd = true) :
    getField (.sifted (siftKeys o [])) "data" = some (.obj dd) := by
  simp only [getField]
  rw [oget_sift_of_ne_orig _ [] (by decide)]
  rw [if_pos (by decide : "data" ∈ fileKeys)]
  rw [mergeO_nil_file, oget_mergeO file o _ (wfO_nodup o h), hgd]
  show some (mergeVal (oget file "data") (.obj dd)) = some (.obj dd)
  rw [show (oget file "data") = some (JVal.obj []) from rfl, mergeVal_obj_obj,
    mergeO_nil_left dd (wfO_nodup dd hddw)]

theorem origBase_of_orig_obj (o : JObj) (g : JObj) (h : wfO o = true)
    (hg2 : oget o "orig" = some (.obj g)) (hgw : wfO g = true) :
    origBaseOf (siftKeys o []) =
      mergeO g (opick (mergeO (mergeO [] file) o)
        (diffKeys (mergeO (mergeO [] file) o) [])) := by
  rw [origBaseOf_sift]
  have hM : oget (mergeO (mergeO [] file) o) "orig" = some (.obj g) := by
    rw [mergeO_nil_file, oget_mergeO file o _ (wfO_nodup o h), hg2]
    show some (mergeVal (oget file "orig") (.obj g)) = some (.obj g)
    rw [show (oget file "orig") = some (JVal.obj []) from rfl, mergeVal_obj_obj,
      mergeO_nil_left g (wfO_nodup g hgw)]
  rw [oget_opick, if_pos (by decide : "orig" ∈ fileKeys), hM, Option.getD_some,
    mergeTop_obj, mergeTop_obj, mergeO_nil_left g (wfO_nodup g hgw)]

/-- C1 (confirmed).  For every admissible input — a string, or a
well-formed object with arbitrary extra keys, together with arbitrary
well-formed options — the record returned by `extendFile` has own
enumerable top-level keys exactly `path, content, orig, data`, and every
non-canonical input key (other than the legacy alias `original`, whose
renaming is claim C8's subject) is relocated under `orig`.  Falsy inputs
return the default record with the same canonical key set. -/
theorem c1_canonical_shape (f : Option JVal) (opts : JObj)
    (hok : inputOk f = true) (hwf : wfArg f = true) (ho : wfO opts = true) :
    topKeys (extendFile f (some opts)).result = fileKeys ∧
    (∀ m, f = some (.obj m) →
      ∀ k ∈ okeys m, k ∉ fileKeys → k ≠ "original" →
      k ∈ origKeys (extendFile f (some opts)).result) := by
  cases f with
  | none => exact ⟨rfl, by intro m hm; cases hm⟩
  | some v =>
    cases v with
    | null => exact ⟨rfl, by intro m hm; cases hm⟩
    | bool b =>
      have h2 : (!b || false) = true := hok
      have hb : b = false := by simpa using h2
      subst hb
      exact ⟨rfl, by intro m hm; cases hm⟩
    | num n =>
      have h2 : (!(n != 0) || false) = true := hok
      have hn : n = 0 := by simpa using h2
      subst hn
      exact ⟨rfl, by intro m hm; cases hm⟩
    | str s =>
      by_cases hs : s = ""
      · subst hs
        exact ⟨rfl, by intro m hm; cases hm⟩
      · have hfa : falsyArg (some (.str s)) = false := by
          simp [falsyArg, truthy, hs]
        have hres : (extendFile (some (.str s)) (some opts)).result =
            .sifted (siftKeys (oset [("content", .str s)] "data"
              (mergeData (.obj [("content", .str s)]) opts)) []) := by
          simp only [extendFile, hfa]
          simp
        have hwfo2 : wfO (oset [("content", .str s)] "data"
            (mergeData (.obj [("content", .str s)]) opts)) = true := by
          apply wfO_oset
          · rfl
          · exact wfV_mergeData _ opts rfl ho
        refine ⟨?_, by intro m hm; cases hm⟩
        rw [hres]
        exact sift_topKeys _ [] hwfo2
    | obj m =>
      have hwfm : wfO m = true := hwf
      set O := (if truthy (oget m "original") = true then
        odel (oset m "orig" ((oget m "original").getD .null)) "original" else m) with hOdef
      have hwfO : wfO O = true := wfO_branch m hwfm
      have hwfo2 : wfO (oset O "data" (mergeData (.obj O) opts)) = true :=
        wfO_oset _ hwfO (wfV_mergeData _ opts (wfV_obj _ hwfO) ho)
      have hres0 : (extendFile (some (.obj m)) (some opts)).result =
          .sifted (siftKeys (oset O "data" (mergeData (.obj O) opts)) []) := rfl
      constructor
      · rw [hres0]
        exact sift_topKeys _ [] hwfo2
      · intro m2 hm2 k hk hknc hko
        have hmm : m = m2 := by
          injection hm2 with h3
          injection h3
        subst hmm
        have hkO : k ∈ okeys O := by
          rw [hOdef]
          split_ifs with ht
          · rw [mem_okeys_odel]
            exact ⟨(mem_okeys_oset _ _ _ _).mpr (Or.inl hk), hko⟩
          · exact hk
        have hkO2 : k ∈ okeys (oset O "data" (mergeData (.obj O) opts)) :=
          (mem_okeys_oset _ _ _ _).mpr (Or.inl hkO)
        have hbase := sift_overflow _ hwfo2 hkO2 hknc
        rw [hres0]
        simp only [origKeys]
        split_ifs with hc
        · exact hbase
        · exact List.mem_append_left _ hbase

/-- Witness for C1 at `file = {content: 'foo', title: 'Bar'}`. -/
theorem c1_witness :
    topKeys (extendFile (some (.obj [("content", .str "foo"), ("title", .str "Bar")]))
      (some [])).result = fileKeys ∧
    (∀ m, some (JVal.obj [("content", .str "foo"), ("title", .str "Bar")])
        = some (.obj m) →
      ∀ k ∈ okeys m, k ∉ fileKeys → k ≠ "original" →
      k ∈ origKeys (extendFile (some (.obj [("content", .str "foo"),
        ("title", .str "Bar")])) (some [])).result) :=
  c1_canonical_shape (some (.obj [("content", .str "foo"), ("title", .str "Bar")]))
    [] rfl rfl rfl

/-- C10 (confirmed).  For every truthy object input, `extendFile`
mutates the caller's argument in place: the provisional record is the
argument itself, so after the call the caller's object owns a `data`
property holding the merged data result (the same value exposed as the
returned record's `data`), and a truthy `original` property has been
deleted from it. -/
theorem c10_mutates_argument (m opts : JObj) (hm : wfO m = true) (ho : wfO opts = true) :
    ∃ o2 : JObj,
      (extendFile (some (.obj m)) (some opts)).fileAfter = some (.obj o2) ∧
      (oget o2 "data").isSome ∧
      oget o2 "data" = getField (extendFile (some (.obj m)) (some opts)).result "data" ∧
      (truthy (oget m "original") = true → oget o2 "original" = none) := by
  refine ⟨oset (if truthy (oget m "original") = true then
    odel (oset m "orig" ((oget m "original").getD .null)) "original" else m) "data"
    (mergeData (.obj (if truthy (oget m "original") = true then
      odel (oset m "orig" ((oget m "original").getD .null)) "original" else m)) opts),
    rfl, ?_, ?_, ?_⟩
  · rw [oget_oset_self]
    rfl
  · have hwfO := wfO_branch m hm
    have hwfo2 : wfO (oset (if truthy (oget m "original") = true then
        odel (oset m "orig" ((oget m "original").getD .null)) "original" else m) "data"
        (mergeData (.obj (if truthy (oget m "original") = true then
          odel (oset m "orig" ((oget m "original").getD .null)) "original" else m))
          opts)) = true :=
      wfO_oset _ hwfO (wfV_mergeData _ opts (wfV_obj _ hwfO) ho)
    have hdd : wfO (asObj (mergeData (.obj (if truthy (oget m "original") = true then
        odel (oset m "orig" ((oget m "original").getD .null)) "original" else m)) opts))
        = true :=
      wfV_asObj _ (wfV_mergeData _ opts (wfV_obj _ hwfO) ho)
    rw [oget_oset_self]
    have hres0 : (extendFile (some (.obj m)) (some opts)).result =
        .sifted (siftKeys (oset (if truthy (oget m "original") = true then
          odel (oset m "orig" ((oget m "original").getD .null)) "original" else m) "data"
          (mergeData (.obj (if truthy (oget m "original") = true then
            odel (oset m "orig" ((oget m "original").getD .null)) "original" else m))
            opts)) []) := rfl
    rw [hres0]
    rw [getField_sift_data _ hwfo2 (by rw [oget_oset_self]; rfl) hdd]
    rfl
  · intro ht
    rw [oget_oset_other _ _ (by decide : "original" ≠ "data")]
    rw [if_pos ht, oget_odel_self]

/-- Witness for C10 at `file = {content: 'foo', original: {raw: 'x'}}`. -/
theorem c10_witness :
    ∃ o2 : JObj,
      (extendFile (some (.obj [("content", .str "foo"),
        ("original", .obj [("raw", .str "x")])])) (some [])).fileAfter
        = some (.obj o2) ∧
      (oget o2 "data").isSome ∧
      oget o2 "data" = getField (extendFile (some (.obj [("content", .str "foo"),
        ("original", .obj [("raw", .str "x")])])) (some [])).result "data" ∧
      (truthy (oget [("content", .str "foo"),
          ("original", .obj [("raw", .str "x")])] "original") = true →
        oget o2 "original" = none) :=
  c10_mutates_argument [("content", .str "foo"), ("original", .obj [("raw", .str "x")])]
    [] rfl rfl

/-- C8, counterexample.  The claim quantifies over every provisional
record carrying a property named `original`.  The rename is guarded by
truthiness (`if (o.original)`), so a falsy `original` (here `0`) is not
renamed; it is treated as overflow and survives as a key inside `orig`,
contradicting "no `original` key remains anywhere on the output". -/
theorem c8_counterexample :
    readOrig (extendFile (some (.obj [("content", .str "foo"), ("original", .num 0)]))
      none).result "original" = some (.num 0) := rfl

/-- C8, amended.  Only a truthy `original` is renamed before the data
merge (shown here for the mapping-valued case, and mappings are always
truthy): `orig` is set to that value on the mutated argument and
`original` is deleted from it, no `original` key remains at the top
level or inside `orig` of the output (provided the value itself carries
no `original` key), and the value's entries are merged into the output's
`orig`.  A falsy `original` is not renamed and survives as
`orig.original` (see the counterexample). -/
theorem c8_amended (m w opts : JObj) (hm : wfO m = true) (ho : wfO opts = true)
    (horig : oget m "original" = some (.obj w))
    (hnested : "original" ∉ okeys w) :
    (∃ o2 : JObj, (extendFile (some (.obj m)) (some opts)).fileAfter = some (.obj o2) ∧
      oget o2 "orig" = some (.obj w) ∧ oget o2 "original" = none) ∧
    "original" ∉ topKeys (extendFile (some (.obj m)) (some opts)).result ∧
    readOrig (extendFile (some (.obj m)) (some opts)).result "original" = none ∧
    (∀ k ∈ okeys w, k ∈ origKeys (extendFile (some (.obj m)) (some opts)).result) := by
  have hw : wfO w = true := wfV_oget m hm horig
  have hOIF : (if truthy (oget m "original") = true then
      odel (oset m "orig" ((oget m "original").getD .null)) "original" else m)
      = odel (oset m "orig" (.obj w)) "original" := by
    rw [horig]
    rfl
  have hres0 : extendFile (some (.obj m)) (some opts) =
      ⟨.sifted (siftKeys (oset (if truthy (oget m "original") = true then
          odel (oset m "orig" ((oget m "original").getD .null)) "original" else m) "data"
          (mergeData (.obj (if truthy (oget m "original") = true then
            odel (oset m "orig" ((oget m "original").getD .null)) "original" else m))
            opts)) []),
       some (.obj (oset (if truthy (oget m "original") = true then
          odel (oset m "orig" ((oget m "original").getD .null)) "original" else m) "data"
          (mergeData (.obj (if truthy (oget m "original") = true then
            odel (oset m "orig" ((oget m "original").getD .null)) "original" else m))
            opts)))⟩ := rfl
  rw [hOIF] at hres0
  have hwfO : wfO (odel (oset m "orig" (.obj w)) "original") = true :=
    wfO_odel (oset m "orig" (.obj w)) (wfO_oset m hm (wfV_obj w hw)) "original"
  have hwfo2 : wfO (oset (odel (oset m "orig" (.obj w)) "original") "data"
      (mergeData (.obj (odel (oset m "orig" (.obj w)) "original")) opts)) = true :=
    wfO_oset _ hwfO (wfV_mergeData _ opts (wfV_obj _ hwfO) ho)
  have horig2 : oget (oset (odel (oset m "orig" (.obj w)) "original") "data"
      (mergeData (.obj (odel (oset m "orig" (.obj w)) "original")) opts)) "orig"
      = some (.obj w) := by
    rw [oget_oset_other _ _ (by decide : "orig" ≠ "data"),
      oget_odel_other _ (by decide : "orig" ≠ "original"), oget_oset_self]
  refine ⟨⟨oset (odel (oset m "orig" (.obj w)) "original") "data"
      (mergeData (.obj (odel (oset m "orig" (.obj w)) "original")) opts), ?_, ?_, ?_⟩,
    ?_, ?_, ?_⟩
  · rw [hres0]
  · exact horig2
  · rw [oget_oset_other _ _ (by decide : "original" ≠ "data"), oget_odel_self]
  · rw [hres0]
    show "original" ∉ okeys (siftKeys (oset (odel (oset m "orig" (.obj w)) "original")
      "data" (mergeData (.obj (odel (oset m "orig" (.obj w)) "original")) opts)) [])
    rw [sift_topKeys _ [] hwfo2]
    decide
  · rw [hres0]
    simp only [readOrig]
    rw [if_neg (by decide : ¬("original" = "content"))]
    rw [origBase_of_orig_obj _ w hwfo2 horig2 hw]
    have hpicksnodup : (okeys (opick (mergeO (mergeO [] file)
        (oset (odel (oset m "orig" (.obj w)) "original") "data"
          (mergeData (.obj (odel (oset m "orig" (.obj w)) "original")) opts)))
        (diffKeys (mergeO (mergeO [] file)
          (oset (odel (oset m "orig" (.obj w)) "original") "data"
            (mergeData (.obj (odel (oset m "orig" (.obj w)) "original")) opts))) []))).Nodup := by
      rw [okeys_opick]
      exact List.Nodup.filter _ (nodup_diffKeys _ hwfo2)
    rw [oget_mergeO _ _ _ hpicksnodup]
    have hMnone : oget (mergeO (mergeO [] file)
        (oset (odel (oset m "orig" (.obj w)) "original") "data"
          (mergeData (.obj (odel (oset m "orig" (.obj w)) "original")) opts))) "original"
        = none := by
      rw [mergeO_nil_file, oget_mergeO file _ _ (wfO_nodup _ hwfo2)]
      rw [oget_oset_other _ _ (by decide : "original" ≠ "data"), oget_odel_self]
      rfl
    have hpicknone : oget (opick (mergeO (mergeO [] file)
        (oset (odel (oset m "orig" (.obj w)) "original") "data"
          (mergeData (.obj (odel (oset m "orig" (.obj w)) "original")) opts)))
        (diffKeys (mergeO (mergeO [] file)
          (oset (odel (oset m "orig" (.obj w)) "original") "data"
            (mergeData (.obj (odel (oset m "orig" (.obj w)) "original")) opts))) []))
        "original" = none := by
      rw [oget_opick]
      split_ifs with h5
      · exact hMnone
      · rfl
    rw [hpicknone]
    exact oget_eq_none_of_not_mem w hnested
  · intro k hkw
    rw [hres0]
    simp only [origKeys]
    rw [origBase_of_orig_obj _ w hwfo2 horig2 hw]
    split_ifs with hc
    · exact mem_okeys_mergeO_left _ _ hkw
    · exact List.mem_append_left _ (mem_okeys_mergeO_left _ _ hkw)

/-- Witness for C8 at `file = {content: 'foo', original: {raw: 'x'}}`. -/
theorem c8_witness :
    (∃ o2 : JObj, (extendFile (some (.obj [("content", .str "foo"),
        ("original", .obj [("raw", .str "x")])])) (some [])).fileAfter
        = some (.obj o2) ∧
      oget o2 "orig" = some (.obj [("raw", .str "x")]) ∧ oget o2 "original" = none) ∧
    "original" ∉ topKeys (extendFile (some (.obj [("content", .str "foo"),
      ("original", .obj [("raw", .str "x")])])) (some [])).result ∧
    readOrig (extendFile (some (.obj [("content", .str "foo"),
      ("original", .obj [("raw", .str "x")])])) (some [])).result "original" = none ∧
    (∀ k ∈ okeys [("raw", .str "x")],
      k ∈ origKeys (extendFile (some (.obj [("content", .str "foo"),
        ("original", .obj [("raw", .str "x")])])) (some [])).result) :=
  c8_amended [("content", .str "foo"), ("original", .obj [("raw", .str "x")])]
    [("raw", .str "x")] [] rfl rfl rfl (by decide)

theorem mergeData_canonical (o : JObj) (d : JObj)
    (hloc : oget o "locals" = none) (hd : oget o "data" = some (.obj d))
    (hdw : wfO d = true) :
    mergeData (.obj o) [] = .obj (odel d "data") := by
  have hpick : opick o dataProps = [("data", .obj d)] := by
    simp only [dataProps, opick, hloc, hd]
  simp only [mergeData, asObj]
  rw [hpick, mergeO_nil_right]
  have h1 : mergeO [] [("data", JVal.obj d)] = [("data", JVal.obj d)] := rfl
  rw [h1]
  have h2 : oget [("data", JVal.obj d)] "data" = some (.obj d) := rfl
  simp only [flattenObject, h2, mergeTop_obj]
  have hdisj : ∀ q ∈ okeys d, q ≠ "data" → oget [("data", JVal.obj d)] q = none := by
    intro q hq hqd
    show (if ("data" : String) = q then some (JVal.obj d) else (none : Option JVal)) = none
    rw [if_neg (fun hh => hqd hh.symm)]
  have h3 := odel_mergeO [("data", .obj d)] d "data" (wfO_nodup d hdw) hdisj
  rw [h3]
  rfl

theorem wfO_canonical_list (p c : String) (g dd : JObj)
    (hgw : wfO g = true) (hdw : wfO dd = true) :
    wfO [("path", .str p), ("content", .str c), ("orig", .obj g), ("data", .obj dd)]
      = true := by
  rw [wfO_cons_iff]
  refine ⟨rfl, rfl, ?_⟩
  rw [wfO_cons_iff]
  refine ⟨rfl, rfl, ?_⟩
  rw [wfO_cons_iff]
  refine ⟨rfl, hgw, ?_⟩
  rw [wfO_cons_iff]
  exact ⟨rfl, hdw, rfl⟩

theorem siftKeys_canonical (o : JObj) (p c : String) (g dd : JObj)
    (h : wfO o = true)
    (hp : oget o "path" = some (.str p))
    (hc : oget o "content" = some (.str c))
    (hg : oget o "orig" = some (.obj g))
    (hd : oget o "data" = some (.obj dd))
    (hgw : wfO g = true) (hdw : wfO dd = true)
    (hsub : ∀ k ∈ okeys o, k ∈ fileKeys) :
    siftKeys o [] =
      [("path", .str p), ("content", .str c), ("orig", .obj g), ("data", .obj dd)] := by
  have hnod := wfO_nodup o h
  have hMp : oget (mergeO (mergeO [] file) o) "path" = some (.str p) := by
    rw [mergeO_nil_file, oget_mergeO file o _ hnod, hp]
    rfl
  have hMc : oget (mergeO (mergeO [] file) o) "content" = some (.str c) := by
    rw [mergeO_nil_file, oget_mergeO file o _ hnod, hc]
    rfl
  have hMg : oget (mergeO (mergeO [] file) o) "orig" = some (.obj g) := by
    rw [mergeO_nil_file, oget_mergeO file o _ hnod, hg]
    show some (mergeVal (oget file "orig") (.obj g)) = some (.obj g)
    rw [show oget file "orig" = some (JVal.obj []) from rfl, mergeVal_obj_obj,
      mergeO_nil_left g (wfO_nodup g hgw)]
  have hMd : oget (mergeO (mergeO [] file) o) "data" = some (.obj dd) := by
    rw [mergeO_nil_file, oget_mergeO file o _ hnod, hd]
    show some (mergeVal (oget file "data") (.obj dd)) = some (.obj dd)
    rw [show oget file "data" = some (JVal.obj []) from rfl, mergeVal_obj_obj,
      mergeO_nil_left dd (wfO_nodup dd hdw)]
  have hdiff : diffKeys (mergeO (mergeO [] file) o) [] = [] := by
    rw [diffKeys, List.append_nil]
    refine List.filter_eq_nil_iff.mpr ?_
    intro k hk
    have hk2 : k ∈ fileKeys := by
      rw [mergeO_nil_file] at hk
      rcases mem_okeys_mergeO file o hk with h2 | h2
      · exact h2
      · exact hsub k h2
    simp [hk2]
  have hpick4 : opick (mergeO (mergeO [] file) o) fileKeys =
      [("path", .str p), ("content", .str c), ("orig", .obj g), ("data", .obj dd)] := by
    rw [show fileKeys = ["path", "content", "orig", "data"] from rfl]
    simp only [opick, hMp, hMc, hMg, hMd]
  simp only [siftKeys]
  rw [hdiff, hpick4]
  show oset [("path", .str p), ("content", .str c), ("orig", .obj g), ("data", .obj dd)]
      "orig" (.obj (mergeO [] g))
    = [("path", .str p), ("content", .str c), ("orig", .obj g), ("data", .obj dd)]
  rw [mergeO_nil_left g (wfO_nodup g hgw)]
  exact oset_of_oget_some _ rfl

/-- C6 (confirmed).  `extendFile` is idempotent on already-canonical
records: for every record whose own keys are exactly
`path, content, data, orig` (with string `path`/`content` and mapping
`data`/`orig`), feeding the returned record back into `extendFile`
produces a record observably equal to the first result — same top-level
keys, same `path`/`content`/`data` values, same `orig` keys and the same
reads through `orig`, the derived `content` accessor included.  The
second call reads the first result through its accessor
(`materializeRes`), exactly as the JavaScript code would. -/
theorem c6_idempotent (m : JObj) (p c : String) (d g : JObj)
    (hm : wfO m = true)
    (hp : oget m "path" = some (.str p))
    (hc : oget m "content" = some (.str c))
    (hg : oget m "orig" = some (.obj g))
    (hd : oget m "data" = some (.obj d))
    (hsub : ∀ k ∈ okeys m, k ∈ fileKeys) :
    obsEq
      (extendFile (some (materializeRes (extendFile (some (.obj m)) none).result))
        none).result
      ((extendFile (some (.obj m)) none).result) := by
  have hgw : wfO g = true := wfV_oget m hm hg
  have hdw : wfO d = true := wfV_oget m hm hd
  have hddw : wfO (odel d "data") = true := wfO_odel d hdw "data"
  have hno : oget m "original" = none := by
    cases ho2 : oget m "original" with
    | none => rfl
    | some v => exact absurd (hsub _ (mem_okeys_of_oget ho2)) (by decide)
  have hloc : oget m "locals" = none := by
    cases ho2 : oget m "locals" with
    | none => rfl
    | some v => exact absurd (hsub _ (mem_okeys_of_oget ho2)) (by decide)
  have hOIF : (if truthy (oget m "original") = true then
      odel (oset m "orig" ((oget m "original").getD .null)) "original" else m) = m := by
    rw [hno]
    rfl
  have hD1 : mergeData (.obj m) [] = .obj (odel d "data") :=
    mergeData_canonical m d hloc hd hdw
  have hres1 : (extendFile (some (.obj m)) none).result =
      .sifted (siftKeys (oset m "data" (.obj (odel d "data"))) []) := by
    have h0 : (extendFile (some (.obj m)) none).result =
        .sifted (siftKeys (oset (if truthy (oget m "original") = true then
          odel (oset m "orig" ((oget m "original").getD .null)) "original" else m) "data"
          (mergeData (.obj (if truthy (oget m "original") = true then
            odel (oset m "orig" ((oget m "original").getD .null)) "original" else m))
            [])) []) := rfl
    rw [h0, hOIF, hD1]
  have hdmem : "data" ∈ okeys m := mem_okeys_of_oget hd
  have ho2keys : okeys (oset m "data" (.obj (odel d "data"))) = okeys m :=
    okeys_oset_of_mem m _ hdmem
  have hsub2 : ∀ k ∈ okeys (oset m "data" (.obj (odel d "data"))), k ∈ fileKeys := by
    intro k hk
    rw [ho2keys] at hk
    exact hsub k hk
  have hwf2 : wfO (oset m "data" (.obj (odel d "data"))) = true :=
    wfO_oset m hm (wfV_obj _ hddw)
  have hsift1 : siftKeys (oset m "data" (.obj (odel d "data"))) [] =
      [("path", .str p), ("content", .str c), ("orig", .obj g),
        ("data", .obj (odel d "data"))] := by
    refine siftKeys_canonical _ p c g (odel d "data") hwf2 ?_ ?_ ?_ ?_ hgw hddw hsub2
    · rw [oget_oset_other _ _ (by decide : "path" ≠ "data")]
      exact hp
    · rw [oget_oset_other _ _ (by decide : "content" ≠ "data")]
      exact hc
    · rw [oget_oset_other _ _ (by decide : "orig" ≠ "data")]
      exact hg
    · exact oget_oset_self _ _ _
  have hmat : materializeRes (.sifted [("path", .str p), ("content", .str c),
      ("orig", .obj g), ("data", .obj (odel d "data"))]) =
      .obj [("path", .str p), ("content", .str c),
        ("orig", .obj (oset g "content" (.str c))), ("data", .obj (odel d "data"))] := rfl
  have hD2 : mergeData (.obj [("path", .str p), ("content", .str c),
      ("orig", .obj (oset g "content" (.str c))), ("data", .obj (odel d "data"))]) []
      = .obj (odel d "data") := by
    rw [mergeData_canonical [("path", .str p), ("content", .str c),
      ("orig", .obj (oset g "content" (.str c))), ("data", .obj (odel d "data"))]
      (odel d "data") rfl rfl hddw, odel_odel]
  have hset2 : oset [("path", .str p), ("content", .str c),
      ("orig", .obj (oset g "content" (.str c))), ("data", .obj (odel d "data"))]
      "data" (.obj (odel d "data"))
      = [("path", .str p), ("content", .str c),
        ("orig", .obj (oset g "content" (.str c))), ("data", .obj (odel d "data"))] :=
    oset_of_oget_some _ rfl
  have hres2 : (extendFile (some (.obj [("path", .str p), ("content", .str c),
      ("orig", .obj (oset g "content" (.str c))), ("data", .obj (odel d "data"))]))
      none).result
      = .sifted (siftKeys [("path", .str p), ("content", .str c),
        ("orig", .obj (oset g "content" (.str c))), ("data", .obj (odel d "data"))] []) := by
    have h0 : (extendFile (some (.obj [("path", .str p), ("content", .str c),
        ("orig", .obj (oset g "content" (.str c))), ("data", .obj (odel d "data"))]))
        none).result
        = .sifted (siftKeys (oset [("path", .str p), ("content", .str c),
            ("orig", .obj (oset g "content" (.str c))), ("data", .obj (odel d "data"))]
            "data"
            (mergeData (.obj [("path", .str p), ("content", .str c),
              ("orig", .obj (oset g "content" (.str c))), ("data", .obj (odel d "data"))])
              [])) []) := rfl
    rw [h0, hD2, hset2]
  have hwfg2 : wfO (oset g "content" (.str c)) = true := wfO_oset g hgw rfl
  have hwfLIT2 : wfO [("path", .str p), ("content", .str c),
      ("orig", .obj (oset g "content" (.str c))), ("data", .obj (odel d "data"))] = true :=
    wfO_canonical_list p c _ _ hwfg2 hddw
  have hsubLIT2 : ∀ k ∈ okeys [("path", .str p), ("content", .str c),
      ("orig", .obj (oset g "content" (.str c))), ("data", .obj (odel d "data"))],
      k ∈ fileKeys := by
    intro k hk
    exact hk
  have hsift2 : siftKeys [("path", .str p), ("content", .str c),
      ("orig", .obj (oset g "content" (.str c))), ("data", .obj (odel d "data"))] []
      = [("path", .str p), ("content", .str c),
        ("orig", .obj (oset g "content" (.str c))), ("data", .obj (odel d "data"))] :=
    siftKeys_canonical _ p c _ _ hwfLIT2 rfl rfl rfl rfl hwfg2 hddw hsubLIT2
  rw [hres1, hsift1, hmat, hres2, hsift2]
  refine ⟨rfl, rfl, rfl, rfl, ?_, ?_⟩
  · simp only [origKeys]
    show (if "content" ∈ okeys (oset g "content" (.str c))
        then okeys (oset g "content" (.str c))
        else okeys (oset g "content" (.str c)) ++ ["content"])
      = (if "content" ∈ okeys g then okeys g else okeys g ++ ["content"])
    have hcin : "content" ∈ okeys (oset g "content" (.str c)) :=
      (mem_okeys_oset _ _ _ _).mpr (Or.inr rfl)
    rw [if_pos hcin]
    by_cases hcg : "content" ∈ okeys g
    · rw [if_pos hcg, okeys_oset_of_mem g _ hcg]
    · rw [if_neg hcg, okeys_oset_of_not_mem g _ hcg]
  · intro k
    simp only [readOrig]
    by_cases hk : k = "content"
    · rw [if_pos hk, if_pos hk]
      rfl
    · rw [if_neg hk, if_neg hk]
      show oget (oset g "content" (.str c)) k = oget g k
      exact oget_oset_other g _ hk

/-- Witness for C6 at a concrete canonical record. -/
theorem c6_witness :
    obsEq
      (extendFile (some (materializeRes (extendFile (some (.obj [("path", .str "a"),
        ("content", .str "b"), ("orig", .obj []), ("data", .obj [("x", .num 1)])]))
        none).result)) none).result
      ((extendFile (some (.obj [("path", .str "a"), ("content", .str "b"),
        ("orig", .obj []), ("data", .obj [("x", .num 1)])])) none).result) :=
  c6_idempotent [("path", .str "a"), ("content", .str "b"), ("orig", .obj []),
    ("data", .obj [("x", .num 1)])] "a" "b" [("x", .num 1)] []
    rfl rfl rfl rfl rfl (by decide)
